import Mathlib

/-!
Verification of the huge-page cache layer (tcmalloc/huge_cache.h) and the
sharded transfer-cache layer (tcmalloc/transfer_cache.h).

The repository ships only the two headers; method bodies that live in the
corresponding .cc / internals files are modelled from the specification
(doc comments starting with "Modelled from the spec:" mark those).
Machine integers (HugeLength, sizes, tick counts) are modelled as Nat;
HugeLength arithmetic saturates toward nonnegative, which Nat subtraction
captures exactly.
-/

namespace TCMalloc

/-- `NHugePages(std::numeric_limits<size_t>::max())`, the neutral element for
minima in `MinMaxTracker::Extrema::Nil`. -/
def kMaxVal : Nat := 2 ^ 64 - 1

/-- Per-epoch extreme values, from `MinMaxTracker::Extrema` in huge_cache.h. -/
structure Extrema where
  min : Nat
  max : Nat
  deriving Repr, DecidableEq

/-- `Extrema::Nil()`: the empty epoch, `{max = 0, min = kMaxVal}`. -/
def Extrema.Nil : Extrema := { min := kMaxVal, max := 0 }

/-- `Extrema::Report(n)`: fold a report into the epoch's extremes. -/
def Extrema.reportVal (e : Extrema) (n : Nat) : Extrema :=
  { min := Nat.min e.min n, max := Nat.max e.max n }

/-- Modelled from the spec: `MinMaxTracker<kEpochs>` (its method bodies live in
huge_cache.cc, absent from the sources). A fixed ring of per-epoch extrema over
a sliding window; `epochs.head` is the current epoch and the list is ordered
newest first. `epochLength = window / kEpochs`; durations and clock readings
are in abstract ticks. -/
structure MinMaxTracker where
  kEpochs : Nat
  epochLength : Nat
  epochs : List Extrema
  lastEpoch : Nat
  deriving Repr, DecidableEq

namespace MinMaxTracker

/-- Modelled from the spec: number of epochs covered by a query over the last
`t` ticks: `⌈t / epochLength⌉` rounded up, and at least the current epoch
("If t < kEpochLength, these functions return statistics for last epoch. The
granularity is kEpochLength (rounded up)."). The ring holds only `kEpochs`
epochs, so `List.take` caps the count at the ring size. -/
def numEpochs (tr : MinMaxTracker) (t : Nat) : Nat :=
  Nat.max 1 ((t + tr.epochLength - 1) / tr.epochLength)

/-- Modelled from the spec: `MinMaxTracker::MaxOverTime(t)` — fold max across
the covered epochs; empty epochs contribute their neutral `max = 0`. -/
def MaxOverTime (tr : MinMaxTracker) (t : Nat) : Nat :=
  ((tr.epochs.take (tr.numEpochs t)).map Extrema.max).foldr Nat.max 0

/-- Modelled from the spec: `MinMaxTracker::MinOverTime(t)` — fold min across
the covered epochs; empty epochs contribute their neutral `min = kMaxVal`. -/
def MinOverTime (tr : MinMaxTracker) (t : Nat) : Nat :=
  ((tr.epochs.take (tr.numEpochs t)).map Extrema.min).foldr Nat.min kMaxVal

/-- Modelled from the spec: advance the epoch ring to the epoch containing
`now`, shifting in empty epochs; "epoch boundaries advance with wall-clock",
"stable under clock skew by flooring epoch indices". -/
def advance (tr : MinMaxTracker) (now : Nat) : MinMaxTracker :=
  let idx := now / tr.epochLength
  let shift := idx - tr.lastEpoch
  { tr with
    epochs := (List.replicate shift Extrema.Nil ++ tr.epochs).take tr.kEpochs
    lastEpoch := Nat.max tr.lastEpoch idx }

/-- Modelled from the spec: `MinMaxTracker::Report(val)` — advance to the
current epoch and fold `val` into its extremes. -/
def Report (tr : MinMaxTracker) (now : Nat) (val : Nat) : MinMaxTracker :=
  let tr' := tr.advance now
  { tr' with
    epochs :=
      match tr'.epochs with
      | [] => []
      | e :: rest => e.reportVal val :: rest }

/-- A fresh tracker over window `w` with `k` epochs, all empty. -/
def init (k w : Nat) : MinMaxTracker :=
  { kEpochs := k, epochLength := w / k, epochs := List.replicate k Extrema.Nil,
    lastEpoch := 0 }

/-- The statistics of the current epoch (an empty ring reads as `Nil`). -/
def currentEpoch (tr : MinMaxTracker) : Extrema :=
  tr.epochs.headD Extrema.Nil

end MinMaxTracker

/-- Folding `Nat.max` over a longer `take`-slice of the same list gives a
larger (or equal) result. -/
theorem foldMax_take_mono (l : List Nat) :
    ∀ n1 n2, n1 ≤ n2 →
      (l.take n1).foldr Nat.max 0 ≤ (l.take n2).foldr Nat.max 0 := by
  induction l with
  | nil => intro n1 n2 _; simp
  | cons a l ih =>
    intro n1 n2 h
    cases n1 with
    | zero => simp
    | succ m1 =>
      cases n2 with
      | zero => omega
      | succ m2 =>
        simp only [List.take_succ_cons, List.foldr_cons]
        exact max_le_max (Nat.le_refl a) (ih m1 m2 (by omega))

/-- Folding `Nat.min` never rises above the initial accumulator. -/
theorem foldMin_le_init (l : List Nat) : l.foldr Nat.min kMaxVal ≤ kMaxVal := by
  induction l with
  | nil => simp
  | cons a l ih =>
    simp only [List.foldr_cons]
    exact le_trans (Nat.min_le_right _ _) ih

/-- Folding `Nat.min` over a longer `take`-slice of the same list gives a
smaller (or equal) result. -/
theorem foldMin_take_anti (l : List Nat) :
    ∀ n1 n2, n1 ≤ n2 →
      (l.take n2).foldr Nat.min kMaxVal ≤ (l.take n1).foldr Nat.min kMaxVal := by
  induction l with
  | nil => intro n1 n2 _; simp
  | cons a l ih =>
    intro n1 n2 h
    cases n1 with
    | zero =>
      simp only [List.take_zero, List.foldr_nil]
      exact foldMin_le_init _
    | succ m1 =>
      cases n2 with
      | zero => omega
      | succ m2 =>
        simp only [List.take_succ_cons, List.foldr_cons]
        exact min_le_min (Nat.le_refl a) (ih m1 m2 (by omega))

/-- `numEpochs` is monotone in the queried duration. -/
theorem numEpochs_mono (tr : MinMaxTracker) {w1 w2 : Nat} (h : w1 ≤ w2) :
    tr.numEpochs w1 ≤ tr.numEpochs w2 := by
  unfold MinMaxTracker.numEpochs
  exact max_le_max (Nat.le_refl 1) (Nat.div_le_div_right (by omega))

/-- A query shorter than one epoch covers exactly the current epoch. -/
theorem numEpochs_eq_one (tr : MinMaxTracker) {t : Nat} (h : t < tr.epochLength) :
    tr.numEpochs t = 1 := by
  have hL : 0 < tr.epochLength := lt_of_le_of_lt (Nat.zero_le t) h
  unfold MinMaxTracker.numEpochs
  have h2 : (t + tr.epochLength - 1) / tr.epochLength < 2 := by
    rw [Nat.div_lt_iff_lt_mul hL]
    omega
  exact Nat.max_eq_left (by omega)

/-- C9: for all durations `w1 ≤ w2` and every report history (i.e. every
tracker state whose stored minima respect the `size_t` bound), the tracker
satisfies `MaxOverTime w1 ≤ MaxOverTime w2` and `MinOverTime w1 ≥
MinOverTime w2`; and any query over `t < kEpochLength` returns the statistics
of the current epoch only. -/
theorem c9_minmaxtracker_query_monotone (tr : MinMaxTracker) (w1 w2 t : Nat)
    (h : w1 ≤ w2) (hwf : ∀ e ∈ tr.epochs, e.min ≤ kMaxVal) :
    tr.MaxOverTime w1 ≤ tr.MaxOverTime w2 ∧
    tr.MinOverTime w2 ≤ tr.MinOverTime w1 ∧
    (t < tr.epochLength →
      tr.MaxOverTime t = tr.currentEpoch.max ∧
      tr.MinOverTime t = tr.currentEpoch.min) := by
  refine ⟨?_, ?_, ?_⟩
  · unfold MinMaxTracker.MaxOverTime
    rw [List.map_take, List.map_take]
    exact foldMax_take_mono _ _ _ (numEpochs_mono tr h)
  · unfold MinMaxTracker.MinOverTime
    rw [List.map_take, List.map_take]
    exact foldMin_take_anti _ _ _ (numEpochs_mono tr h)
  · intro ht
    unfold MinMaxTracker.MaxOverTime MinMaxTracker.MinOverTime
    rw [numEpochs_eq_one tr ht]
    cases hE : tr.epochs with
    | nil =>
      simp [MinMaxTracker.currentEpoch, hE, Extrema.Nil]
    | cons e rest =>
      have hm : e.min ≤ kMaxVal := hwf e (by rw [hE]; exact List.mem_cons_self e rest)
      constructor
      · simp [MinMaxTracker.currentEpoch, hE]
      · simp [MinMaxTracker.currentEpoch, hE, Nat.min_eq_left hm]

/-- C9 witness: the theorem applied at a concrete tracker state. -/
theorem c9_minmaxtracker_query_monotone_witness :
    (MinMaxTracker.init 16 32).MaxOverTime 3 ≤ (MinMaxTracker.init 16 32).MaxOverTime 7 := by
  exact (c9_minmaxtracker_query_monotone (MinMaxTracker.init 16 32) 3 7 1
    (by omega) (by decide)).1

/-- A contiguous run of huge pages, `HugeRange = (start_hugepage, length)`. -/
structure HugeRange where
  start : Nat
  len : Nat
  deriving Repr, DecidableEq

/-- Total length of the runs stored in a HugeAddressMap (list of free runs). -/
def sumLen (l : List HugeRange) : Nat := (l.map HugeRange.len).sum

/-- Modelled from the spec: HugeAddressMap best-fit lookup `Find(n)`
(huge_address_map.h/.cc are not among the sources): the smallest run of
length ≥ n, tie-break lowest address. -/
def findBest : List HugeRange → Nat → Option HugeRange
  | [], _ => none
  | r :: rest, n =>
    match findBest rest n with
    | none => if n ≤ r.len then some r else none
    | some b =>
      if n ≤ r.len ∧ (r.len < b.len ∨ (r.len = b.len ∧ r.start ≤ b.start)) then
        some r
      else
        some b

/-- Modelled from the spec: HugeAddressMap `Insert(r)` — insert coalescing
with the immediate address neighbors (a run ending at `r.start`, a run
starting at `r.start + r.len`) when present. -/
def insertCoalesced (l : List HugeRange) (r : HugeRange) : List HugeRange :=
  match l.find? (fun p => p.start + p.len == r.start),
        l.find? (fun s => s.start == r.start + r.len) with
  | none, none => r :: l
  | some p, none => { start := p.start, len := p.len + r.len } :: l.erase p
  | none, some s => { start := r.start, len := r.len + s.len } :: l.erase s
  | some p, some s =>
      { start := p.start, len := p.len + r.len + s.len } :: (l.erase p).erase s

/-- Modelled from the spec: the eviction victim order of
`HugeCache::ShrinkCache` — the largest run, tie-break highest address. -/
def findLargest : List HugeRange → Option HugeRange
  | [] => none
  | r :: rest =>
    match findLargest rest with
    | none => some r
    | some b =>
      if b.len < r.len ∨ (b.len = r.len ∧ b.start ≤ r.start) then some r else some b

/-- `findBest` returns a member of the list of sufficient length. -/
theorem findBest_mem {l : List HugeRange} {n : Nat} :
    ∀ {r : HugeRange}, findBest l n = some r → r ∈ l ∧ n ≤ r.len := by
  induction l with
  | nil => intro r h; simp [findBest] at h
  | cons a rest ih =>
    intro r h
    rw [findBest] at h
    cases hR : findBest rest n with
    | none =>
      rw [hR] at h
      by_cases ha : n ≤ a.len
      · simp [ha] at h
        exact ⟨by simp [← h], by rw [← h]; exact ha⟩
      · simp [ha] at h
    | some b =>
      rw [hR] at h
      have hb := ih hR
      by_cases hc : n ≤ a.len ∧ (a.len < b.len ∨ (a.len = b.len ∧ a.start ≤ b.start))
      · simp [hc] at h
        exact ⟨by simp [← h], by rw [← h]; exact hc.1⟩
      · simp [hc] at h
        exact ⟨by simp [← h, hb.1], by rw [← h]; exact hb.2⟩

/-- If `findBest` fails, no stored run is long enough. -/
theorem findBest_none {l : List HugeRange} {n : Nat}
    (h : findBest l n = none) : ∀ r ∈ l, r.len < n := by
  induction l with
  | nil => simp
  | cons a rest ih =>
    rw [findBest] at h
    cases hR : findBest rest n with
    | none =>
      rw [hR] at h
      by_cases ha : n ≤ a.len
      · simp [ha] at h
      · intro r hr
        rcases List.mem_cons.mp hr with rfl | hr
        · omega
        · exact ih hR r hr
    | some b =>
      rw [hR] at h
      by_cases hc : n ≤ a.len ∧ (a.len < b.len ∨ (a.len = b.len ∧ a.start ≤ b.start))
      · simp [hc] at h
      · simp [hc] at h

/-- If some stored run is long enough, `findBest` succeeds. -/
theorem findBest_isSome {l : List HugeRange} {n : Nat} {r : HugeRange}
    (hr : r ∈ l) (hn : n ≤ r.len) : ∃ b, findBest l n = some b := by
  cases h : findBest l n with
  | none => exact absurd hn (by have := findBest_none h r hr; omega)
  | some b => exact ⟨b, rfl⟩

/-- `findLargest` returns a member of the list. -/
theorem findLargest_mem {l : List HugeRange} :
    ∀ {r : HugeRange}, findLargest l = some r → r ∈ l := by
  induction l with
  | nil => intro r h; simp [findLargest] at h
  | cons a rest ih =>
    intro r h
    rw [findLargest] at h
    cases hR : findLargest rest with
    | none =>
      rw [hR] at h
      simp at h
      simp [← h]
    | some b =>
      rw [hR] at h
      by_cases hc : b.len < a.len ∨ (b.len = a.len ∧ b.start ≤ a.start)
      · simp [hc] at h
        simp [← h]
      · simp [hc] at h
        simp [← h, ih hR]

/-- `findLargest` fails only on the empty list. -/
theorem findLargest_none {l : List HugeRange}
    (h : findLargest l = none) : l = [] := by
  cases l with
  | nil => rfl
  | cons a rest =>
    rw [findLargest] at h
    cases hR : findLargest rest with
    | none => rw [hR] at h; simp at h
    | some b =>
      rw [hR] at h
      by_cases hc : b.len < a.len ∨ (b.len = a.len ∧ b.start ≤ a.start) <;>
        simp [hc] at h

/-- Every member's length is bounded by the total. -/
theorem len_le_sumLen {l : List HugeRange} {r : HugeRange} (h : r ∈ l) :
    r.len ≤ sumLen l := by
  induction l with
  | nil => simp at h
  | cons a rest ih =>
    rcases List.mem_cons.mp h with rfl | h
    · simp [sumLen]
    · have h2 := ih h
      simp only [sumLen, List.map_cons, List.sum_cons] at h2 ⊢
      omega

/-- Erasing a member removes exactly its length from the total. -/
theorem sumLen_erase {l : List HugeRange} {r : HugeRange} (h : r ∈ l) :
    sumLen (l.erase r) + r.len = sumLen l := by
  induction l with
  | nil => simp at h
  | cons a rest ih =>
    by_cases ha : a = r
    · subst ha
      rw [List.erase_cons_head]
      simp only [sumLen, List.map_cons, List.sum_cons]
      omega
    · rw [List.erase_cons_tail (by simp [ha])]
      have hmem : r ∈ rest := by
        rcases List.mem_cons.mp h with rfl | hm
        · exact absurd rfl ha
        · exact hm
      have h3 := ih hmem
      simp only [sumLen, List.map_cons, List.sum_cons] at h3 ⊢
      omega

/-- Erasing a zero-length run leaves the total unchanged. -/
theorem sumLen_erase_zero {l : List HugeRange} {r : HugeRange} (h : r.len = 0) :
    sumLen (l.erase r) = sumLen l := by
  by_cases hm : r ∈ l
  · have := sumLen_erase hm
    omega
  · rw [List.erase_of_not_mem hm]

/-- Coalescing insertion adds exactly the inserted length to the total. -/
theorem sumLen_insertCoalesced (l : List HugeRange) (r : HugeRange) :
    sumLen (insertCoalesced l r) = sumLen l + r.len := by
  unfold insertCoalesced
  cases hp : l.find? (fun p => p.start + p.len == r.start) with
  | none =>
    cases hs : l.find? (fun s => s.start == r.start + r.len) with
    | none => simp only [sumLen, List.map_cons, List.sum_cons]; omega
    | some s =>
      have hsm : s ∈ l := List.mem_of_find?_eq_some hs
      have h1 := sumLen_erase hsm
      simp only [sumLen, List.map_cons, List.sum_cons] at h1 ⊢
      omega
  | some p =>
    have hpm : p ∈ l := List.mem_of_find?_eq_some hp
    have hpe : p.start + p.len = r.start := by
      have := List.find?_some hp
      simpa using this
    cases hs : l.find? (fun s => s.start == r.start + r.len) with
    | none =>
      have h1 := sumLen_erase hpm
      simp only [sumLen, List.map_cons, List.sum_cons] at h1 ⊢
      omega
    | some s =>
      have hsm : s ∈ l := List.mem_of_find?_eq_some hs
      have hse : s.start = r.start + r.len := by
        have := List.find?_some hs
        simpa using this
      by_cases hps : s = p
      · subst hps
        have hz : r.len = 0 ∧ s.len = 0 := by omega
        have h1 : sumLen (l.erase s) = sumLen l := sumLen_erase_zero hz.2
        have h2 : sumLen ((l.erase s).erase s) = sumLen (l.erase s) :=
          sumLen_erase_zero hz.2
        simp only [sumLen, List.map_cons, List.sum_cons] at h1 h2 ⊢
        omega
      · have hsm2 : s ∈ l.erase p := (List.mem_erase_of_ne hps).mpr hsm
        have h1 := sumLen_erase hpm
        have h2 := sumLen_erase hsm2
        simp only [sumLen, List.map_cons, List.sum_cons] at h1 h2 ⊢
        omega

/-- Modelled from the spec: `HugeCache::ShrinkCache(target)` eviction loop —
repeatedly remove the largest run (unbacking its full extent) until the cache
holds at most `target` hugepages; if the final removal overshoots, split the
run and keep the low portion. Returns the remaining runs, the remaining total
size, and the number of hugepages evicted. -/
def shrinkRuns (l : List HugeRange) (size target : Nat) :
    List HugeRange × Nat × Nat :=
  if size ≤ target then (l, size, 0)
  else
    match hF : findLargest l with
    | none => (l, size, 0)
    | some r =>
      if target ≤ size - r.len then
        let res := shrinkRuns (l.erase r) (size - r.len) target
        (res.1, res.2.1, res.2.2 + r.len)
      else
        let keep := target - (size - r.len)
        ({ start := r.start, len := keep } :: l.erase r, target, r.len - keep)
termination_by l.length
decreasing_by
  have hm := findLargest_mem hF
  have hpos : 0 < l.length := List.length_pos.mpr (List.ne_nil_of_mem hm)
  rw [List.length_erase_of_mem hm]
  omega

/-- `shrinkRuns` unfolding: nothing to do once the size is within target. -/
theorem shrinkRuns_stop (l : List HugeRange) (size target : Nat)
    (h : size ≤ target) : shrinkRuns l size target = (l, size, 0) := by
  rw [shrinkRuns, if_pos h]

/-- `shrinkRuns` unfolding: evict the whole largest run and continue. -/
theorem shrinkRuns_step_whole (l : List HugeRange) (size target : Nat)
    (r : HugeRange) (hgt : ¬size ≤ target) (hF : findLargest l = some r)
    (hcut : target ≤ size - r.len) :
    shrinkRuns l size target =
      ((shrinkRuns (l.erase r) (size - r.len) target).1,
       (shrinkRuns (l.erase r) (size - r.len) target).2.1,
       (shrinkRuns (l.erase r) (size - r.len) target).2.2 + r.len) := by
  rw [shrinkRuns, if_neg hgt]
  split
  · rename_i heq
    rw [hF] at heq
    exact absurd heq (by simp)
  · rename_i r1 heq
    rw [hF] at heq
    cases heq
    rw [if_pos hcut]

/-- `shrinkRuns` unfolding: split the largest run, keep the low portion. -/
theorem shrinkRuns_step_split (l : List HugeRange) (size target : Nat)
    (r : HugeRange) (hgt : ¬size ≤ target) (hF : findLargest l = some r)
    (hcut : ¬target ≤ size - r.len) :
    shrinkRuns l size target =
      ({ start := r.start, len := target - (size - r.len) } :: l.erase r, target,
        r.len - (target - (size - r.len))) := by
  rw [shrinkRuns, if_neg hgt]
  split
  · rename_i heq
    rw [hF] at heq
    exact absurd heq (by simp)
  · rename_i r1 heq
    rw [hF] at heq
    cases heq
    rw [if_neg hcut]

/-- `shrinkRuns` keeps the size/sum invariant, shrinks the size to
`min size target`, and reports exactly the evicted difference. -/
theorem shrinkRuns_spec : ∀ (l : List HugeRange) (size target : Nat),
    sumLen l = size →
    sumLen (shrinkRuns l size target).1 = (shrinkRuns l size target).2.1 ∧
    (shrinkRuns l size target).2.1 = min size target ∧
    (shrinkRuns l size target).2.2 = size - min size target := by
  intro l size target
  induction l, size, target using shrinkRuns.induct with
  | case1 l size target hle =>
    intro hsum
    rw [shrinkRuns_stop l size target hle, Nat.min_eq_left hle]
    refine ⟨hsum, rfl, ?_⟩
    show (0 : Nat) = size - size
    omega
  | case2 l size target hgt hF =>
    intro hsum
    exfalso
    have hnil : l = [] := findLargest_none hF
    subst hnil
    simp [sumLen] at hsum
    omega
  | case3 l size target hgt r hF hcut ih =>
    intro hsum
    have hm := findLargest_mem hF
    have hrle : r.len ≤ size := by rw [← hsum]; exact len_le_sumLen hm
    have hsub : sumLen (l.erase r) = size - r.len := by
      have := sumLen_erase hm
      omega
    have IH := ih hsub
    rw [shrinkRuns_step_whole l size target r hgt hF hcut]
    rw [Nat.min_eq_right (by omega : target ≤ size)]
    refine ⟨?_, ?_, ?_⟩
    · show sumLen (shrinkRuns (l.erase r) (size - r.len) target).1 =
          (shrinkRuns (l.erase r) (size - r.len) target).2.1
      exact IH.1
    · show (shrinkRuns (l.erase r) (size - r.len) target).2.1 = target
      rw [IH.2.1, Nat.min_eq_right hcut]
    · show (shrinkRuns (l.erase r) (size - r.len) target).2.2 + r.len = size - target
      rw [IH.2.2, Nat.min_eq_right hcut]
      omega
  | case4 l size target hgt r hF hcut =>
    intro hsum
    have hm := findLargest_mem hF
    have hrle : r.len ≤ size := by rw [← hsum]; exact len_le_sumLen hm
    have hsub : sumLen (l.erase r) + r.len = size := by
      rw [← hsum]; exact sumLen_erase hm
    rw [shrinkRuns_step_split l size target r hgt hF hcut]
    rw [Nat.min_eq_right (by omega : target ≤ size)]
    refine ⟨?_, rfl, ?_⟩
    · show sumLen ({ start := r.start, len := target - (size - r.len) } :: l.erase r) =
          target
      simp only [sumLen, List.map_cons, List.sum_cons]
      simp only [sumLen] at hsub
      omega
    · show r.len - (target - (size - r.len)) = size - target
      omega

/-- Nanoseconds per second; durations are modelled in nanosecond ticks. -/
def NanosPerSecond : Nat := 1000000000

/-- `absl::Minutes(m)` in nanosecond ticks. -/
def Minutes (m : Nat) : Nat := m * 60 * NanosPerSecond

/-- `HugeCache::MinCacheLimit()` = 10 hugepages (huge_cache.h). -/
def MinCacheLimit : Nat := 10

/-- `HugeCache::CapDemandInterval()` = 5 minutes (huge_cache.h). -/
def CapDemandInterval : Nat := Minutes 5

/-- Modelled from the spec: `SkipSubreleaseIntervals`
(huge_page_subrelease.h is absent from the sources) — a short and a long
lookback duration, zero meaning unset; the demand-based release feature is
enabled iff either is set. -/
structure SkipSubreleaseIntervals where
  short_interval : Nat
  long_interval : Nat
  deriving Repr, DecidableEq

/-- Modelled from the spec: whether any lookback interval is set. -/
def SkipSubreleaseIntervals.SkipSubreleaseEnabled
    (iv : SkipSubreleaseIntervals) : Bool :=
  iv.short_interval != 0 || iv.long_interval != 0

/-- The HugeCache state, following the field list of huge_cache.h. `cache_`
is the HugeAddressMap of free backed runs. The underlying `HugeAllocator`
collaborator is modelled by `allocNext`, the next fresh hugepage index it
hands out (it always succeeds with a backed run of the requested length).
The weighted hit counters are omitted: the spec leaves their formula open
and no claim mentions them. -/
structure HugeCache where
  cache_ : List HugeRange
  size_ : Nat
  limit_ : Nat
  usage_ : Nat
  hits_ : Nat
  misses_ : Nat
  fills_ : Nat
  overflows_ : Nat
  last_limit_change_ : Nat
  usage_tracker_ : MinMaxTracker
  off_peak_tracker_ : MinMaxTracker
  size_tracker_ : MinMaxTracker
  detailed_tracker_ : MinMaxTracker
  total_fast_unbacked_ : Nat
  total_periodic_unbacked_ : Nat
  cache_time_ : Nat
  allocNext : Nat
  deriving Repr, DecidableEq

namespace HugeCache

/-- The constructor state: empty cache, `limit_ = 10` hugepages, trackers
over a `2 × cache_time` window with 16 epochs (600 epochs over 10 minutes
for the detailed tracker), as in huge_cache.h. -/
def mk0 (cache_time : Nat) : HugeCache :=
  { cache_ := [], size_ := 0, limit_ := MinCacheLimit, usage_ := 0, hits_ := 0,
    misses_ := 0, fills_ := 0, overflows_ := 0, last_limit_change_ := 0,
    usage_tracker_ := MinMaxTracker.init 16 (2 * cache_time),
    off_peak_tracker_ := MinMaxTracker.init 16 (2 * cache_time),
    size_tracker_ := MinMaxTracker.init 16 (2 * cache_time),
    detailed_tracker_ := MinMaxTracker.init 600 (Minutes 10),
    total_fast_unbacked_ := 0, total_periodic_unbacked_ := 0,
    cache_time_ := cache_time, allocNext := 0 }

/-- Modelled from the spec: `HugeCache::IncUsage(n)` — raise `usage_` and
report it to the usage trackers. -/
def IncUsage (c : HugeCache) (now : Nat) (n : Nat) : HugeCache :=
  { c with
    usage_ := c.usage_ + n,
    usage_tracker_ := c.usage_tracker_.Report now (c.usage_ + n),
    detailed_tracker_ := c.detailed_tracker_.Report now (c.usage_ + n) }

/-- Modelled from the spec: `HugeCache::DecUsage(n)` — lower `usage_` and
report it to the usage trackers. -/
def DecUsage (c : HugeCache) (now : Nat) (n : Nat) : HugeCache :=
  { c with
    usage_ := c.usage_ - n,
    usage_tracker_ := c.usage_tracker_.Report now (c.usage_ - n),
    detailed_tracker_ := c.detailed_tracker_.Report now (c.usage_ - n) }

/-- Modelled from the spec (§4.3): `HugeCache::MaybeGrowCacheLimit(missed)` —
`needed = peak − valley + missed` over the last `cache_time`; raise `limit_`
to exactly `needed` iff `needed > limit_`, recording the change time; then
update `size_tracker_` and `off_peak_tracker_` (the spec does not fix the
reported values; the size tracker reports `size_` and the off-peak tracker
the unused headroom `limit_ − usage_`). -/
def MaybeGrowCacheLimit (c : HugeCache) (missed : Nat) (now : Nat) :
    HugeCache :=
  let peak := c.usage_tracker_.MaxOverTime c.cache_time_
  let valley := c.usage_tracker_.MinOverTime c.cache_time_
  let needed := peak - valley + missed
  let c1 :=
    if c.limit_ < needed then
      { c with limit_ := needed, last_limit_change_ := now }
    else c
  { c1 with
    size_tracker_ := c1.size_tracker_.Report now c1.size_,
    off_peak_tracker_ := c1.off_peak_tracker_.Report now (c1.limit_ - c1.usage_) }

/-- Modelled from the spec (§4.2): `HugeCache::DoGet(n, &from_released)` —
serve from the best-fit run (splitting off the low `n`-prefix and leaving the
suffix) and count a hit, or count a miss, invoke `MaybeGrowCacheLimit(n)` and
fetch a fresh backed run from the underlying allocator. -/
def DoGet (c : HugeCache) (n : Nat) (now : Nat) :
    HugeRange × Bool × HugeCache :=
  match findBest c.cache_ n with
  | none =>
    let c1 := { c with misses_ := c.misses_ + 1 }
    let c2 := c1.MaybeGrowCacheLimit n now
    ({ start := c2.allocNext, len := n }, true,
      { c2 with allocNext := c2.allocNext + n })
  | some b =>
    let rest := c.cache_.erase b
    let cache' :=
      if n < b.len then { start := b.start + n, len := b.len - n } :: rest
      else rest
    ({ start := b.start, len := n }, false,
      { c with cache_ := cache', size_ := c.size_ - n, hits_ := c.hits_ + 1 })

/-- Modelled from the spec: `HugeCache::Get(n, &from_released)` — `DoGet`
followed by `usage_ += n` accounting. -/
def Get (c : HugeCache) (n : Nat) (now : Nat) :
    HugeRange × Bool × HugeCache :=
  let res := c.DoGet n now
  (res.1, res.2.1, res.2.2.IncUsage now n)

/-- Modelled from the spec (§4.2): `HugeCache::Release(r, demand_based_unback)`
— `usage_ -= len(r)`, insert `r` into `cache_` with coalescing, and when
`demand_based_unback` is unset and the cache overflows `limit_`, immediately
unback the overflow, counting it in `overflows_`/`total_fast_unbacked_`. -/
def Release (c : HugeCache) (r : HugeRange) (demand_based_unback : Bool)
    (now : Nat) : HugeCache :=
  let c1 := c.DecUsage now r.len
  let c2 := { c1 with
    cache_ := insertCoalesced c1.cache_ r,
    size_ := c1.size_ + r.len, fills_ := c1.fills_ + 1 }
  if !demand_based_unback && decide (c2.limit_ < c2.size_) then
    let res := shrinkRuns c2.cache_ c2.size_ c2.limit_
    { c2 with
      cache_ := res.1, size_ := res.2.1,
      overflows_ := c2.overflows_ + 1,
      total_fast_unbacked_ := c2.total_fast_unbacked_ + res.2.2 }
  else c2

/-- Modelled from the spec (§4.2): `HugeCache::ReleaseUnbacked(r)` — the
range is not backed and is passed straight to the underlying allocator; the
cache contents are untouched. -/
def ReleaseUnbacked (c : HugeCache) (r : HugeRange) : HugeCache := c

/-- Modelled from the spec (§4.4): `HugeCache::MaybeShrinkCacheLimit()` —
with `maxsz = size_tracker_.MaxOverTime(2 × cache_time_)`, fire only when
`maxsz < limit_` and `now − last_limit_change_ ≥ cache_time_`; then the new
limit is `max(MinCacheLimit, maxsz)`, the cache is shrunk to it (evicting
`size_ − new_limit` when above it) and the eviction count returned. -/
def MaybeShrinkCacheLimit (c : HugeCache) (now : Nat) :
    HugeCache × Nat :=
  let maxsz := c.size_tracker_.MaxOverTime (2 * c.cache_time_)
  if maxsz < c.limit_ ∧ c.cache_time_ ≤ now - c.last_limit_change_ then
    let newLimit := max MinCacheLimit maxsz
    let res := shrinkRuns c.cache_ c.size_ newLimit
    ({ c with
      cache_ := res.1, size_ := res.2.1, limit_ := newLimit,
      last_limit_change_ := now }, res.2.2)
  else (c, 0)

/-- Modelled from the spec (§4.2): `HugeCache::ReleaseCachedPages(n)` —
unback at most `n` hugepages from the cache, then also invoke
`MaybeShrinkCacheLimit()`, returning the total released. -/
def ReleaseCachedPages (c : HugeCache) (n : Nat) (now : Nat) :
    HugeCache × Nat :=
  let res := shrinkRuns c.cache_ c.size_ (c.size_ - Nat.min n c.size_)
  let c1 := { c with cache_ := res.1, size_ := res.2.1 }
  let sres := c1.MaybeShrinkCacheLimit now
  (sres.1, res.2.2 + sres.2)

/-- Modelled from the spec (§4.6): `HugeCache::GetDesiredReleaseablePages` —
cap `desired` by the headroom over the recent demand peak (short interval,
falling back to the long one; untouched if neither is set), and force at
least the 5-minute realized-fragmentation floor without exceeding
`desired`. -/
def GetDesiredReleaseablePages (c : HugeCache) (desired : Nat)
    (intervals : SkipSubreleaseIntervals) : Nat :=
  if intervals.SkipSubreleaseEnabled then
    let lookback :=
      if intervals.short_interval != 0 then intervals.short_interval
      else intervals.long_interval
    let recent_peak := c.usage_tracker_.MaxOverTime lookback
    let headroom := c.size_ + c.usage_ - recent_peak
    let target := min desired headroom
    let min5 := c.size_tracker_.MinOverTime CapDemandInterval
    if 0 < min5 then min (max target min5) desired else target
  else desired

/-- Modelled from the spec (§4.2): `HugeCache::ReleaseCachedPagesByDemand` —
disabled (returns 0, state untouched) when `hit_limit` is set or no interval
is given; otherwise release the demand-capped target like
`ReleaseCachedPages` and accumulate `total_periodic_unbacked_`. -/
def ReleaseCachedPagesByDemand (c : HugeCache) (n : Nat)
    (intervals : SkipSubreleaseIntervals) (hit_limit : Bool) (now : Nat) :
    HugeCache × Nat :=
  if hit_limit || !intervals.SkipSubreleaseEnabled then (c, 0)
  else
    let target := c.GetDesiredReleaseablePages n intervals
    let res := c.ReleaseCachedPages target now
    ({ res.1 with
      total_periodic_unbacked_ := res.1.total_periodic_unbacked_ + res.2 },
      res.2)

end HugeCache

/-- `MaybeGrowCacheLimit` unfolding when the raise fires. -/
theorem maybeGrow_fire (c : HugeCache) (missed now : Nat)
    (h : c.limit_ < c.usage_tracker_.MaxOverTime c.cache_time_ -
        c.usage_tracker_.MinOverTime c.cache_time_ + missed) :
    c.MaybeGrowCacheLimit missed now =
      (let c1 : HugeCache := { c with
        limit_ := c.usage_tracker_.MaxOverTime c.cache_time_ -
          c.usage_tracker_.MinOverTime c.cache_time_ + missed,
        last_limit_change_ := now }
      { c1 with
        size_tracker_ := c1.size_tracker_.Report now c1.size_,
        off_peak_tracker_ :=
          c1.off_peak_tracker_.Report now (c1.limit_ - c1.usage_) }) := by
  simp only [HugeCache.MaybeGrowCacheLimit, if_pos h]

/-- `MaybeGrowCacheLimit` unfolding when the raise does not fire. -/
theorem maybeGrow_skip (c : HugeCache) (missed now : Nat)
    (h : ¬(c.limit_ < c.usage_tracker_.MaxOverTime c.cache_time_ -
        c.usage_tracker_.MinOverTime c.cache_time_ + missed)) :
    c.MaybeGrowCacheLimit missed now =
      { c with
        size_tracker_ := c.size_tracker_.Report now c.size_,
        off_peak_tracker_ :=
          c.off_peak_tracker_.Report now (c.limit_ - c.usage_) } := by
  simp only [HugeCache.MaybeGrowCacheLimit, if_neg h]

/-- C3: on a miss of length `missed`, `MaybeGrowCacheLimit` computes
`needed = MaxOverTime(cache_time) - MinOverTime(cache_time) + missed` over
the usage tracker and, exactly when `needed > limit_`, sets `limit_` to
`needed` (no smoothing) and records `last_limit_change_ = now`; otherwise it
leaves both untouched, so `limit_` never decreases. -/
theorem c3_maybe_grow_cache_limit (c : HugeCache) (missed now : Nat) :
    (c.usage_tracker_.MaxOverTime c.cache_time_ -
        c.usage_tracker_.MinOverTime c.cache_time_ + missed > c.limit_ →
      (c.MaybeGrowCacheLimit missed now).limit_ =
        c.usage_tracker_.MaxOverTime c.cache_time_ -
          c.usage_tracker_.MinOverTime c.cache_time_ + missed ∧
      (c.MaybeGrowCacheLimit missed now).last_limit_change_ = now) ∧
    (c.usage_tracker_.MaxOverTime c.cache_time_ -
        c.usage_tracker_.MinOverTime c.cache_time_ + missed ≤ c.limit_ →
      (c.MaybeGrowCacheLimit missed now).limit_ = c.limit_ ∧
      (c.MaybeGrowCacheLimit missed now).last_limit_change_ =
        c.last_limit_change_) ∧
    c.limit_ ≤ (c.MaybeGrowCacheLimit missed now).limit_ := by
  by_cases h : c.limit_ <
      c.usage_tracker_.MaxOverTime c.cache_time_ -
        c.usage_tracker_.MinOverTime c.cache_time_ + missed
  · rw [maybeGrow_fire c missed now h]
    refine ⟨fun _ => ⟨rfl, rfl⟩, fun hle => absurd h (not_lt.mpr hle), ?_⟩
    exact le_of_lt h
  · rw [maybeGrow_skip c missed now h]
    exact ⟨fun hgt => absurd hgt h, fun _ => ⟨rfl, rfl⟩, Nat.le_refl _⟩

/-- C3 witness: the growth formula evaluated at a concrete state. -/
theorem c3_maybe_grow_cache_limit_witness :
    ((HugeCache.mk0 4).MaybeGrowCacheLimit 20 7).limit_ = 20 := by
  exact ((c3_maybe_grow_cache_limit (HugeCache.mk0 4) 20 7).1 (by decide)).1

/-- `MaybeShrinkCacheLimit` unfolding when the guard fires. -/
theorem maybeShrink_fire (c : HugeCache) (now : Nat)
    (h : c.size_tracker_.MaxOverTime (2 * c.cache_time_) < c.limit_ ∧
        c.cache_time_ ≤ now - c.last_limit_change_) :
    c.MaybeShrinkCacheLimit now =
      ({ c with
        cache_ := (shrinkRuns c.cache_ c.size_
          (max MinCacheLimit
            (c.size_tracker_.MaxOverTime (2 * c.cache_time_)))).1,
        size_ := (shrinkRuns c.cache_ c.size_
          (max MinCacheLimit
            (c.size_tracker_.MaxOverTime (2 * c.cache_time_)))).2.1,
        limit_ := max MinCacheLimit
          (c.size_tracker_.MaxOverTime (2 * c.cache_time_)),
        last_limit_change_ := now },
       (shrinkRuns c.cache_ c.size_
          (max MinCacheLimit
            (c.size_tracker_.MaxOverTime (2 * c.cache_time_)))).2.2) := by
  simp only [HugeCache.MaybeShrinkCacheLimit, if_pos h]

/-- `MaybeShrinkCacheLimit` unfolding when the guard fails. -/
theorem maybeShrink_skip (c : HugeCache) (now : Nat)
    (h : ¬(c.size_tracker_.MaxOverTime (2 * c.cache_time_) < c.limit_ ∧
        c.cache_time_ ≤ now - c.last_limit_change_)) :
    c.MaybeShrinkCacheLimit now = (c, 0) := by
  simp only [HugeCache.MaybeShrinkCacheLimit, if_neg h]

/-- C4: `MaybeShrinkCacheLimit` lowers the limit only when both
`maxsz < limit_` (with `maxsz = size_tracker_.MaxOverTime(2 * cache_time_)`)
and `now - last_limit_change_ >= cache_time_` hold; then the new limit is
`max(MinCacheLimit, maxsz)` (never below 10 hugepages), `size_ - new_limit`
hugepages are evicted and returned when `size_` exceeds the new limit;
otherwise it returns 0 and leaves the state unchanged. -/
theorem c4_maybe_shrink_cache_limit (c : HugeCache) (now : Nat)
    (hsum : sumLen c.cache_ = c.size_) :
    (¬(c.size_tracker_.MaxOverTime (2 * c.cache_time_) < c.limit_ ∧
        c.cache_time_ ≤ now - c.last_limit_change_) →
      (c.MaybeShrinkCacheLimit now).1 = c ∧ (c.MaybeShrinkCacheLimit now).2 = 0) ∧
    ((c.size_tracker_.MaxOverTime (2 * c.cache_time_) < c.limit_ ∧
        c.cache_time_ ≤ now - c.last_limit_change_) →
      (c.MaybeShrinkCacheLimit now).1.limit_ =
        max MinCacheLimit (c.size_tracker_.MaxOverTime (2 * c.cache_time_)) ∧
      MinCacheLimit ≤ (c.MaybeShrinkCacheLimit now).1.limit_ ∧
      (c.MaybeShrinkCacheLimit now).1.last_limit_change_ = now ∧
      (max MinCacheLimit (c.size_tracker_.MaxOverTime (2 * c.cache_time_)) <
          c.size_ →
        (c.MaybeShrinkCacheLimit now).2 =
          c.size_ -
            max MinCacheLimit
              (c.size_tracker_.MaxOverTime (2 * c.cache_time_)) ∧
        (c.MaybeShrinkCacheLimit now).1.size_ =
          max MinCacheLimit
            (c.size_tracker_.MaxOverTime (2 * c.cache_time_))) ∧
      (c.size_ ≤
          max MinCacheLimit (c.size_tracker_.MaxOverTime (2 * c.cache_time_)) →
        (c.MaybeShrinkCacheLimit now).2 = 0 ∧
        (c.MaybeShrinkCacheLimit now).1.size_ = c.size_)) := by
  by_cases h : c.size_tracker_.MaxOverTime (2 * c.cache_time_) < c.limit_ ∧
      c.cache_time_ ≤ now - c.last_limit_change_
  · refine ⟨fun hng => absurd h hng, fun _ => ?_⟩
    have hS := shrinkRuns_spec c.cache_ c.size_
      (max MinCacheLimit (c.size_tracker_.MaxOverTime (2 * c.cache_time_)))
      hsum
    rw [maybeShrink_fire c now h]
    refine ⟨rfl, Nat.le_max_left _ _, rfl, fun hlt => ?_, fun hge => ?_⟩
    · constructor
      · show (shrinkRuns c.cache_ c.size_ _).2.2 = _
        rw [hS.2.2, Nat.min_eq_right (le_of_lt hlt)]
      · show (shrinkRuns c.cache_ c.size_ _).2.1 = _
        rw [hS.2.1, Nat.min_eq_right (le_of_lt hlt)]
    · constructor
      · show (shrinkRuns c.cache_ c.size_ _).2.2 = 0
        rw [hS.2.2, Nat.min_eq_left hge]
        omega
      · show (shrinkRuns c.cache_ c.size_ _).2.1 = c.size_
        rw [hS.2.1, Nat.min_eq_left hge]
  · refine ⟨fun _ => ?_, fun hy => absurd hy h⟩
    rw [maybeShrink_skip c now h]
    exact ⟨rfl, rfl⟩

/-- C4 witness: at a concrete state the guard fails, so nothing changes. -/
theorem c4_maybe_shrink_cache_limit_witness :
    ((HugeCache.mk0 4).MaybeShrinkCacheLimit 0).1 = HugeCache.mk0 4 ∧
    ((HugeCache.mk0 4).MaybeShrinkCacheLimit 0).2 = 0 := by
  exact (c4_maybe_shrink_cache_limit (HugeCache.mk0 4) 0 (by decide)).1 (by decide)

/-- C5: `GetDesiredReleaseablePages(desired, intervals)` returns `desired`
unchanged when no interval is set; otherwise it caps `desired` at the
headroom `max(0, size_ + usage_ - recent_peak)` where `recent_peak` is the
usage tracker's max over the short (else long) interval, raises the result to
the 5-minute realized-fragmentation floor of the size tracker when that is
positive, and never exceeds `desired`. -/
theorem c5_get_desired_releaseable_pages (c : HugeCache)
    (desired : Nat) (iv : SkipSubreleaseIntervals) :
    (iv.SkipSubreleaseEnabled = false →
      c.GetDesiredReleaseablePages desired iv = desired) ∧
    (iv.SkipSubreleaseEnabled = true →
      c.GetDesiredReleaseablePages desired iv ≤ desired ∧
      (0 < c.size_tracker_.MinOverTime CapDemandInterval →
        c.GetDesiredReleaseablePages desired iv =
          min desired
            (max
              (min desired
                (c.size_ + c.usage_ -
                  c.usage_tracker_.MaxOverTime
                    (if iv.short_interval != 0 then iv.short_interval
                     else iv.long_interval)))
              (c.size_tracker_.MinOverTime CapDemandInterval)) ∧
        min desired (c.size_tracker_.MinOverTime CapDemandInterval) ≤
          c.GetDesiredReleaseablePages desired iv) ∧
      (c.size_tracker_.MinOverTime CapDemandInterval = 0 →
        c.GetDesiredReleaseablePages desired iv =
          min desired
            (c.size_ + c.usage_ -
              c.usage_tracker_.MaxOverTime
                (if iv.short_interval != 0 then iv.short_interval
                 else iv.long_interval)))) := by
  constructor
  · intro h
    simp [HugeCache.GetDesiredReleaseablePages, h]
  · intro h
    by_cases h5 : 0 < c.size_tracker_.MinOverTime CapDemandInterval
    · have he : c.GetDesiredReleaseablePages desired iv =
          min
            (max
              (min desired
                (c.size_ + c.usage_ -
                  c.usage_tracker_.MaxOverTime
                    (if iv.short_interval != 0 then iv.short_interval
                     else iv.long_interval)))
              (c.size_tracker_.MinOverTime CapDemandInterval))
            desired := by
        simp only [HugeCache.GetDesiredReleaseablePages, h, if_true, if_pos h5]
      rw [he]
      refine ⟨Nat.min_le_right _ _, fun _ => ⟨?_, ?_⟩, fun hz => ?_⟩
      · omega
      · omega
      · omega
    · have hz5 : c.size_tracker_.MinOverTime CapDemandInterval = 0 := by omega
      have he : c.GetDesiredReleaseablePages desired iv =
          min desired
            (c.size_ + c.usage_ -
              c.usage_tracker_.MaxOverTime
                (if iv.short_interval != 0 then iv.short_interval
                 else iv.long_interval)) := by
        simp only [HugeCache.GetDesiredReleaseablePages, h, if_true, if_neg h5]
      rw [he]
      exact ⟨Nat.min_le_left _ _, fun h5y => absurd h5y h5, fun _ => rfl⟩

/-- C5 witness: with no interval set the desired amount is unchanged. -/
theorem c5_get_desired_releaseable_pages_witness :
    (HugeCache.mk0 4).GetDesiredReleaseablePages 9 ⟨0, 0⟩ = 9 := by
  exact (c5_get_desired_releaseable_pages (HugeCache.mk0 4) 9 ⟨0, 0⟩).1 (by decide)

/-- `MaybeGrowCacheLimit` touches only `limit_`, `last_limit_change_` and the
trackers. -/
theorem maybeGrow_preserves (c : HugeCache) (missed now : Nat) :
    (c.MaybeGrowCacheLimit missed now).cache_ = c.cache_ ∧
    (c.MaybeGrowCacheLimit missed now).size_ = c.size_ ∧
    (c.MaybeGrowCacheLimit missed now).usage_ = c.usage_ ∧
    (c.MaybeGrowCacheLimit missed now).hits_ = c.hits_ ∧
    (c.MaybeGrowCacheLimit missed now).misses_ = c.misses_ ∧
    (c.MaybeGrowCacheLimit missed now).allocNext = c.allocNext := by
  by_cases h : c.limit_ < c.usage_tracker_.MaxOverTime c.cache_time_ -
      c.usage_tracker_.MinOverTime c.cache_time_ + missed
  · rw [maybeGrow_fire c missed now h]
    exact ⟨rfl, rfl, rfl, rfl, rfl, rfl⟩
  · rw [maybeGrow_skip c missed now h]
    exact ⟨rfl, rfl, rfl, rfl, rfl, rfl⟩

/-- The limit computed by `MaybeGrowCacheLimit` ignores the miss counter. -/
theorem maybeGrow_limit_agnostic (c : HugeCache) (k missed now : Nat) :
    (({ c with misses_ := k } : HugeCache).MaybeGrowCacheLimit missed now).limit_ =
      (c.MaybeGrowCacheLimit missed now).limit_ := by
  by_cases h : c.limit_ < c.usage_tracker_.MaxOverTime c.cache_time_ -
      c.usage_tracker_.MinOverTime c.cache_time_ + missed
  · rw [maybeGrow_fire c missed now h,
      maybeGrow_fire ({ c with misses_ := k }) missed now h]
  · rw [maybeGrow_skip c missed now h,
      maybeGrow_skip ({ c with misses_ := k }) missed now h]

/-- C1: `Get(n)` returns a contiguous run of exactly `n` hugepages and raises
`usage_` by `n`. When the cache holds a run of length ≥ n, the best-fit run
is removed (or split, keeping its low `n`-prefix), `from_released` is false
and `hits_` is incremented; otherwise `MaybeGrowCacheLimit(n)` is invoked,
the run is fetched from the underlying allocator, `from_released` is true and
`misses_` is incremented. -/
theorem c1_get_contract (c : HugeCache) (n now : Nat) (hn : 0 < n) :
    (c.Get n now).1.len = n ∧
    (c.Get n now).2.2.usage_ = c.usage_ + n ∧
    ((∃ b ∈ c.cache_, n ≤ b.len) →
      (c.Get n now).2.1 = false ∧
      (c.Get n now).2.2.hits_ = c.hits_ + 1 ∧
      (c.Get n now).2.2.misses_ = c.misses_ ∧
      (c.Get n now).2.2.limit_ = c.limit_ ∧
      ∃ b, findBest c.cache_ n = some b ∧ b ∈ c.cache_ ∧ n ≤ b.len ∧
        (c.Get n now).1 = { start := b.start, len := n } ∧
        (c.Get n now).2.2.cache_ =
          (if n < b.len then
            { start := b.start + n, len := b.len - n } :: c.cache_.erase b
          else c.cache_.erase b) ∧
        (c.Get n now).2.2.size_ = c.size_ - n) ∧
    ((∀ b ∈ c.cache_, b.len < n) →
      (c.Get n now).2.1 = true ∧
      (c.Get n now).2.2.misses_ = c.misses_ + 1 ∧
      (c.Get n now).2.2.hits_ = c.hits_ ∧
      (c.Get n now).1 = { start := c.allocNext, len := n } ∧
      (c.Get n now).2.2.limit_ = (c.MaybeGrowCacheLimit n now).limit_ ∧
      (c.Get n now).2.2.cache_ = c.cache_ ∧
      (c.Get n now).2.2.size_ = c.size_) := by
  cases hF : findBest c.cache_ n with
  | some b =>
    obtain ⟨hbm, hbl⟩ := findBest_mem hF
    have heGet : c.Get n now =
        ({ start := b.start, len := n }, false,
          ({ c with
            cache_ :=
              (if n < b.len then
                { start := b.start + n, len := b.len - n } :: c.cache_.erase b
              else c.cache_.erase b),
            size_ := c.size_ - n,
            hits_ := c.hits_ + 1 } : HugeCache).IncUsage now n) := by
      simp only [HugeCache.Get, HugeCache.DoGet, hF]
    rw [heGet]
    refine ⟨rfl, rfl, fun _ => ?_, fun hall => ?_⟩
    · exact ⟨rfl, rfl, rfl, rfl, b, rfl, hbm, hbl, rfl, rfl, rfl⟩
    · have := hall b hbm
      omega
  | none =>
    have hall := findBest_none hF
    set d : HugeCache :=
      ({ c with misses_ := c.misses_ + 1 } : HugeCache).MaybeGrowCacheLimit n now
      with hd
    have hP := maybeGrow_preserves ({ c with misses_ := c.misses_ + 1 }) n now
    have hc : d.cache_ = c.cache_ := by rw [hd]; exact hP.1
    have hs : d.size_ = c.size_ := by rw [hd]; exact hP.2.1
    have hu : d.usage_ = c.usage_ := by rw [hd]; exact hP.2.2.1
    have hh : d.hits_ = c.hits_ := by rw [hd]; exact hP.2.2.2.1
    have hm : d.misses_ = c.misses_ + 1 := by rw [hd]; exact hP.2.2.2.2.1
    have ha : d.allocNext = c.allocNext := by rw [hd]; exact hP.2.2.2.2.2
    have hl : d.limit_ = (c.MaybeGrowCacheLimit n now).limit_ := by
      rw [hd]; exact maybeGrow_limit_agnostic c (c.misses_ + 1) n now
    have heGet : c.Get n now =
        ({ start := d.allocNext, len := n }, true,
          ({ d with allocNext := d.allocNext + n } : HugeCache).IncUsage now n) := by
      simp only [HugeCache.Get, HugeCache.DoGet, hF]
    rw [heGet]
    refine ⟨rfl, ?_, fun hex => ?_, fun _ => ?_⟩
    · show d.usage_ + n = c.usage_ + n
      rw [hu]
    · obtain ⟨b, hbm, hbl⟩ := hex
      have := hall b hbm
      omega
    · refine ⟨rfl, ?_, ?_, ?_, ?_, ?_, ?_⟩
      · show d.misses_ = c.misses_ + 1
        exact hm
      · show d.hits_ = c.hits_
        exact hh
      · show ({ start := d.allocNext, len := n } : HugeRange) =
          { start := c.allocNext, len := n }
        rw [ha]
      · show d.limit_ = (c.MaybeGrowCacheLimit n now).limit_
        exact hl
      · show d.cache_ = c.cache_
        exact hc
      · show d.size_ = c.size_
        exact hs

/-- C1 witness: a concrete miss on the empty cache. -/
theorem c1_get_contract_witness :
    ((HugeCache.mk0 4).Get 3 0).1.len = 3 ∧
    ((HugeCache.mk0 4).Get 3 0).2.2.usage_ = (HugeCache.mk0 4).usage_ + 3 := by
  have h := c1_get_contract (HugeCache.mk0 4) 3 0 (by decide)
  exact ⟨h.1, h.2.1⟩

/-- `Get` keeps the size/sum invariant and raises `usage_` by `n`. -/
theorem get_inv (c : HugeCache) (n now : Nat)
    (hInv : sumLen c.cache_ = c.size_) :
    sumLen (c.Get n now).2.2.cache_ = (c.Get n now).2.2.size_ ∧
    (c.Get n now).2.2.usage_ = c.usage_ + n := by
  cases hF : findBest c.cache_ n with
  | some b =>
    obtain ⟨hbm, hbl⟩ := findBest_mem hF
    have hble := len_le_sumLen hbm
    have hse := sumLen_erase hbm
    have heGet : (c.Get n now).2.2 =
        ({ c with
          cache_ :=
            (if n < b.len then
              { start := b.start + n, len := b.len - n } :: c.cache_.erase b
            else c.cache_.erase b),
          size_ := c.size_ - n,
          hits_ := c.hits_ + 1 } : HugeCache).IncUsage now n := by
      simp only [HugeCache.Get, HugeCache.DoGet, hF]
    rw [heGet]
    constructor
    · show sumLen
        (if n < b.len then
          { start := b.start + n, len := b.len - n } :: c.cache_.erase b
        else c.cache_.erase b) = c.size_ - n
      by_cases hlt : n < b.len
      · rw [if_pos hlt]
        simp only [sumLen, List.map_cons, List.sum_cons]
        simp only [sumLen] at hse hInv hble
        omega
      · rw [if_neg hlt]
        simp only [sumLen] at hse hInv hble ⊢
        omega
    · show c.usage_ + n = c.usage_ + n
      rfl
  | none =>
    set d : HugeCache :=
      ({ c with misses_ := c.misses_ + 1 } : HugeCache).MaybeGrowCacheLimit n now
      with hd
    have hP := maybeGrow_preserves ({ c with misses_ := c.misses_ + 1 }) n now
    have hc : d.cache_ = c.cache_ := by rw [hd]; exact hP.1
    have hs : d.size_ = c.size_ := by rw [hd]; exact hP.2.1
    have hu : d.usage_ = c.usage_ := by rw [hd]; exact hP.2.2.1
    have heGet : (c.Get n now).2.2 =
        ({ d with allocNext := d.allocNext + n } : HugeCache).IncUsage now n := by
      simp only [HugeCache.Get, HugeCache.DoGet, hF]
    rw [heGet]
    constructor
    · show sumLen d.cache_ = d.size_
      rw [hc, hs]
      exact hInv
    · show d.usage_ + n = c.usage_ + n
      rw [hu]

/-- `Release` keeps the size/sum invariant and lowers `usage_` by the
released length. -/
theorem release_inv (c : HugeCache) (r : HugeRange) (db : Bool) (now : Nat)
    (hInv : sumLen c.cache_ = c.size_) :
    sumLen (c.Release r db now).cache_ = (c.Release r db now).size_ ∧
    (c.Release r db now).usage_ = c.usage_ - r.len := by
  have hic := sumLen_insertCoalesced c.cache_ r
  have hsum2 : sumLen (insertCoalesced (c.DecUsage now r.len).cache_ r) =
      (c.DecUsage now r.len).size_ + r.len := by
    show sumLen (insertCoalesced c.cache_ r) = c.size_ + r.len
    rw [hic, hInv]
  simp only [HugeCache.Release]
  split
  · constructor
    · exact (shrinkRuns_spec _ _ _ hsum2).1
    · show c.usage_ - r.len = c.usage_ - r.len
      rfl
  · constructor
    · exact hsum2
    · show c.usage_ - r.len = c.usage_ - r.len
      rfl

/-- `MaybeShrinkCacheLimit` keeps the size/sum invariant and `usage_`. -/
theorem maybeShrink_inv (c : HugeCache) (now : Nat)
    (hInv : sumLen c.cache_ = c.size_) :
    sumLen (c.MaybeShrinkCacheLimit now).1.cache_ =
      (c.MaybeShrinkCacheLimit now).1.size_ ∧
    (c.MaybeShrinkCacheLimit now).1.usage_ = c.usage_ := by
  by_cases h : c.size_tracker_.MaxOverTime (2 * c.cache_time_) < c.limit_ ∧
      c.cache_time_ ≤ now - c.last_limit_change_
  · rw [maybeShrink_fire c now h]
    exact ⟨(shrinkRuns_spec _ _ _ hInv).1, rfl⟩
  · rw [maybeShrink_skip c now h]
    exact ⟨hInv, rfl⟩

/-- `ReleaseCachedPages` keeps the size/sum invariant and `usage_`. -/
theorem releaseCachedPages_inv (c : HugeCache) (n now : Nat)
    (hInv : sumLen c.cache_ = c.size_) :
    sumLen (c.ReleaseCachedPages n now).1.cache_ =
      (c.ReleaseCachedPages n now).1.size_ ∧
    (c.ReleaseCachedPages n now).1.usage_ = c.usage_ := by
  have hS := shrinkRuns_spec c.cache_ c.size_ (c.size_ - min n c.size_) hInv
  have h1 : sumLen ({ c with
      cache_ := (shrinkRuns c.cache_ c.size_ (c.size_ - min n c.size_)).1,
      size_ := (shrinkRuns c.cache_ c.size_ (c.size_ - min n c.size_)).2.1 } :
        HugeCache).cache_ =
      ({ c with
        cache_ := (shrinkRuns c.cache_ c.size_ (c.size_ - min n c.size_)).1,
        size_ := (shrinkRuns c.cache_ c.size_ (c.size_ - min n c.size_)).2.1 } :
          HugeCache).size_ := hS.1
  have h2 := maybeShrink_inv _ now h1
  simp only [HugeCache.ReleaseCachedPages]
  exact ⟨h2.1, h2.2⟩

/-- `ReleaseCachedPagesByDemand` keeps the size/sum invariant and `usage_`. -/
theorem releaseByDemand_inv (c : HugeCache) (n : Nat)
    (iv : SkipSubreleaseIntervals) (hl : Bool) (now : Nat)
    (hInv : sumLen c.cache_ = c.size_) :
    sumLen (c.ReleaseCachedPagesByDemand n iv hl now).1.cache_ =
      (c.ReleaseCachedPagesByDemand n iv hl now).1.size_ ∧
    (c.ReleaseCachedPagesByDemand n iv hl now).1.usage_ = c.usage_ := by
  simp only [HugeCache.ReleaseCachedPagesByDemand]
  split
  · exact ⟨hInv, rfl⟩
  · have h2 := releaseCachedPages_inv c (c.GetDesiredReleaseablePages n iv) now hInv
    exact ⟨h2.1, h2.2⟩

/-- One operation of the HugeCache interface, with the clock reading the
C++ methods would take, for replaying call sequences against the state. -/
inductive HCOp where
  | get (n now : Nat)
  | release (r : HugeRange) (db : Bool) (now : Nat)
  | releaseUnbacked (r : HugeRange)
  | releaseCached (n now : Nat)
  | releaseByDemand (n : Nat) (iv : SkipSubreleaseIntervals) (hl : Bool)
      (now : Nat)
  deriving Repr, DecidableEq

/-- The state reached after one operation (returned values discarded). -/
def HugeCache.step (c : HugeCache) : HCOp → HugeCache
  | .get n now => (c.Get n now).2.2
  | .release r db now => c.Release r db now
  | .releaseUnbacked r => c.ReleaseUnbacked r
  | .releaseCached n now => (c.ReleaseCachedPages n now).1
  | .releaseByDemand n iv hl now => (c.ReleaseCachedPagesByDemand n iv hl now).1

/-- The state reached after a sequence of operations. -/
def runOps (c : HugeCache) : List HCOp → HugeCache
  | [] => c
  | op :: ops => runOps (c.step op) ops

/-- Guard per operation: a `Release(r)` only gives back hugepages the caller
still holds (`len(r) ≤ usage_`), which the C++ code asserts. -/
def opValid (c : HugeCache) : HCOp → Bool
  | .release r _ _ => decide (r.len ≤ c.usage_)
  | _ => true

/-- Well-formed call sequences: every operation respects its guard in the
state where it runs. -/
def validOps (c : HugeCache) : List HCOp → Bool
  | [] => true
  | op :: ops => opValid c op && validOps (c.step op) ops

/-- Total hugepages handed out by the `Get` operations of a sequence. -/
def getTotal : List HCOp → Nat
  | [] => 0
  | .get n _ :: ops => n + getTotal ops
  | _ :: ops => getTotal ops

/-- Total hugepages given back by the `Release` operations of a sequence. -/
def releaseTotal : List HCOp → Nat
  | [] => 0
  | .release r _ _ :: ops => r.len + releaseTotal ops
  | _ :: ops => releaseTotal ops

/-- The size/sum invariant and the usage ledger hold along every valid run. -/
theorem runOps_inv : ∀ (ops : List HCOp) (c : HugeCache),
    sumLen c.cache_ = c.size_ → validOps c ops = true →
    sumLen (runOps c ops).cache_ = (runOps c ops).size_ ∧
    (runOps c ops).usage_ + releaseTotal ops = c.usage_ + getTotal ops := by
  intro ops
  induction ops with
  | nil =>
    intro c hInv _
    exact ⟨hInv, rfl⟩
  | cons op ops ih =>
    intro c hInv hval
    rw [validOps, Bool.and_eq_true] at hval
    obtain ⟨hg, hrest⟩ := hval
    cases op with
    | get n now =>
      have hs := get_inv c n now hInv
      have hr := ih _ hs.1 hrest
      have h2 := hr.2
      rw [hs.2] at h2
      refine ⟨?_, ?_⟩
      · show sumLen (runOps (c.Get n now).2.2 ops).cache_ =
          (runOps (c.Get n now).2.2 ops).size_
        exact hr.1
      · show (runOps (c.Get n now).2.2 ops).usage_ + releaseTotal ops =
          c.usage_ + (n + getTotal ops)
        omega
    | release r db now =>
      have hlen : r.len ≤ c.usage_ := by
        have := hg
        simp [opValid] at this
        exact this
      have hs := release_inv c r db now hInv
      have hr := ih _ hs.1 hrest
      have h2 := hr.2
      rw [hs.2] at h2
      refine ⟨?_, ?_⟩
      · show sumLen (runOps (c.Release r db now) ops).cache_ =
          (runOps (c.Release r db now) ops).size_
        exact hr.1
      · show (runOps (c.Release r db now) ops).usage_ +
          (r.len + releaseTotal ops) = c.usage_ + getTotal ops
        omega
    | releaseUnbacked r =>
      have hr := ih _ (show sumLen (c.ReleaseUnbacked r).cache_ =
        (c.ReleaseUnbacked r).size_ from hInv) hrest
      have h2 := hr.2
      refine ⟨?_, ?_⟩
      · show sumLen (runOps (c.ReleaseUnbacked r) ops).cache_ =
          (runOps (c.ReleaseUnbacked r) ops).size_
        exact hr.1
      · show (runOps (c.ReleaseUnbacked r) ops).usage_ + releaseTotal ops =
          c.usage_ + getTotal ops
        exact h2
    | releaseCached n now =>
      have hs := releaseCachedPages_inv c n now hInv
      have hr := ih _ hs.1 hrest
      have h2 := hr.2
      rw [hs.2] at h2
      refine ⟨?_, ?_⟩
      · show sumLen (runOps (c.ReleaseCachedPages n now).1 ops).cache_ =
          (runOps (c.ReleaseCachedPages n now).1 ops).size_
        exact hr.1
      · show (runOps (c.ReleaseCachedPages n now).1 ops).usage_ +
          releaseTotal ops = c.usage_ + getTotal ops
        exact h2
    | releaseByDemand n iv hl now =>
      have hs := releaseByDemand_inv c n iv hl now hInv
      have hr := ih _ hs.1 hrest
      have h2 := hr.2
      rw [hs.2] at h2
      refine ⟨?_, ?_⟩
      · show sumLen
          (runOps (c.ReleaseCachedPagesByDemand n iv hl now).1 ops).cache_ =
          (runOps (c.ReleaseCachedPagesByDemand n iv hl now).1 ops).size_
        exact hr.1
      · show (runOps (c.ReleaseCachedPagesByDemand n iv hl now).1 ops).usage_ +
          releaseTotal ops = c.usage_ + getTotal ops
        exact h2

/-- C2: along every valid operation sequence from the initial state, `size_`
equals the sum of the lengths of the runs stored in `cache_`, and `usage_`
equals the total handed out by `Get` minus the total given back by `Release`
(the ledger equation shows the difference never truncates, so `usage_` never
goes negative). -/
theorem c2_state_invariants (ct : Nat) (ops : List HCOp)
    (hval : validOps (HugeCache.mk0 ct) ops = true) :
    sumLen (runOps (HugeCache.mk0 ct) ops).cache_ =
      (runOps (HugeCache.mk0 ct) ops).size_ ∧
    (runOps (HugeCache.mk0 ct) ops).usage_ + releaseTotal ops = getTotal ops := by
  have h := runOps_inv ops (HugeCache.mk0 ct) rfl hval
  refine ⟨h.1, ?_⟩
  have h2 := h.2
  have hz : (HugeCache.mk0 ct).usage_ = 0 := rfl
  rw [hz] at h2
  omega

/-- C2 witness: a concrete valid sequence (a miss `Get`, then a partial
`Release`). -/
theorem c2_state_invariants_witness :
    validOps (HugeCache.mk0 1)
        [HCOp.get 3 0, HCOp.release { start := 0, len := 2 } true 1] = true ∧
    (runOps (HugeCache.mk0 1)
        [HCOp.get 3 0, HCOp.release { start := 0, len := 2 } true 1]).usage_ +
      releaseTotal
        [HCOp.get 3 0, HCOp.release { start := 0, len := 2 } true 1] =
      getTotal [HCOp.get 3 0, HCOp.release { start := 0, len := 2 } true 1] := by
  refine ⟨by decide, ?_⟩
  exact (c2_state_invariants 1
    [HCOp.get 3 0, HCOp.release { start := 0, len := 2 } true 1] (by decide)).2

/-- C6: `ReleaseCachedPagesByDemand(n, intervals, hit_limit)` returns 0 and
leaves the whole cache state unchanged whenever `hit_limit` is true or no
interval is set. -/
theorem c6_release_by_demand_disabled (c : HugeCache) (n : Nat)
    (iv : SkipSubreleaseIntervals) (hl : Bool) (now : Nat)
    (h : hl = true ∨ iv.SkipSubreleaseEnabled = false) :
    c.ReleaseCachedPagesByDemand n iv hl now = (c, 0) := by
  rcases h with h | h <;>
    simp [HugeCache.ReleaseCachedPagesByDemand, h]

/-- C6 witness: a disabled demand-based release at a concrete state. -/
theorem c6_release_by_demand_disabled_witness :
    (HugeCache.mk0 4).ReleaseCachedPagesByDemand 5 ⟨0, 0⟩ false 3 =
      (HugeCache.mk0 4, 0) := by
  exact c6_release_by_demand_disabled (HugeCache.mk0 4) 5 ⟨0, 0⟩ false 3
    (Or.inr (by decide))

/-! Transfer-cache layer (tcmalloc/transfer_cache.h). -/

/-- The activation threshold of `ShardedTransferCacheManagerBase::Init`
(transfer_cache.h): `static constexpr int min_size = 4096`. -/
def min_size : Nat := 4096

/-- `static constexpr int k12MB = 12 << 20` in
`ShardedTransferCacheManagerBase::InitShard` (transfer_cache.h). -/
def k12MB : Nat := 12 * 2 ^ 20

/-- One per-class ring cache as constructed by `InitShard`: the capacity
bound, the size class handed to the `RingBufferTransferCache` constructor
(`capacity > 0 ? cl : 0`), and the size class its backing freelist is
initialized with (`new_caches[cl].freelist().Init(cl)`). -/
structure RingCacheInit where
  capacity : Nat
  size_class : Nat
  freelist_size_class : Nat
  deriving Repr, DecidableEq

/-- The state of `ShardedTransferCacheManagerBase` relevant here: the
forwarder's `class_to_size` table, `kNumClasses`, and the
`active_for_class_` array built by `Init`. -/
structure ShardedTCM where
  class_to_size : Nat → Nat
  kNumClasses : Nat
  active_for_class_ : Nat → Bool

/-- `ShardedTransferCacheManagerBase::Init` (transfer_cache.h): for every
size class, `active_for_class_[cl] = (class_to_size(cl) >= min_size)`. -/
def ShardedTCM.init (cts : Nat → Nat) (k : Nat) : ShardedTCM :=
  { class_to_size := cts, kNumClasses := k,
    active_for_class_ := fun cl => decide (min_size ≤ cts cl) }

/-- `should_use(cl) { return active_for_class_[cl]; }` (transfer_cache.h). -/
def ShardedTCM.should_use (m : ShardedTCM) (cl : Nat) : Bool :=
  m.active_for_class_ cl

/-- `ShardedTransferCacheManagerBase::InitShard` (transfer_cache.h): build
`kNumClasses` ring caches; `capacity = should_use(cl) ? k12MB /
size_per_object : 0`; the constructor receives `capacity > 0 ? cl : 0` and
each cache's freelist is initialized with its own class `cl`. -/
def ShardedTCM.initShard (m : ShardedTCM) : List RingCacheInit :=
  (List.range m.kNumClasses).map (fun cl =>
    let size_per_object := m.class_to_size cl
    let capacity := if m.should_use cl then k12MB / size_per_object else 0
    { capacity := capacity,
      size_class := if 0 < capacity then cl else 0,
      freelist_size_class := cl })

/-- C7: after `Init`, `should_use(cl)` holds iff `class_to_size(cl) ≥ 4096`;
and the shard cache built for class `cl` has capacity
`12 MiB / class_to_size(cl)` when active and 0 otherwise, its backing
freelist initialized with its own size class. -/
theorem c7_sharded_init_activation (cts : Nat → Nat) (k cl : Nat)
    (hcl : cl < k) :
    ((ShardedTCM.init cts k).should_use cl = true ↔ min_size ≤ cts cl) ∧
    (ShardedTCM.init cts k).initShard[cl]? =
      some { capacity := if min_size ≤ cts cl then k12MB / cts cl else 0,
             size_class :=
               if 0 < (if min_size ≤ cts cl then k12MB / cts cl else 0) then cl
               else 0,
             freelist_size_class := cl } := by
  constructor
  · simp [ShardedTCM.init, ShardedTCM.should_use]
  · have hr : (List.range k)[cl]? = some cl := by
      simp [List.getElem?_range, hcl]
    by_cases ha : min_size ≤ cts cl <;>
      simp [ShardedTCM.initShard, ShardedTCM.init, ShardedTCM.should_use,
        List.getElem?_map, hr, ha]

/-- C7 witness: a two-class table with one active and one inactive class. -/
theorem c7_sharded_init_activation_witness :
    ((ShardedTCM.init (fun cl => if cl = 0 then 64 else 8192) 2).should_use 1 =
        true ↔ min_size ≤ 8192) ∧
    (ShardedTCM.init (fun cl => if cl = 0 then 64 else 8192) 2).initShard[1]? =
      some { capacity := k12MB / 8192, size_class := 1,
             freelist_size_class := 1 } := by
  have h := c7_sharded_init_activation
    (fun cl => if cl = 0 then 64 else 8192) 2 1 (by decide)
  refine ⟨?_, ?_⟩
  · simpa using h.1
  · have h2 := h.2
    simpa using h2

/-- The manager interface a `RingBufferTransferCache` grows and steals
through (`MakeCacheSpace`, `ShrinkCache`, `DetermineSizeClassToEvict`). -/
structure Manager where
  DetermineSizeClassToEvict : Int → Int
  MakeCacheSpace : Int → Bool
  ShrinkCache : Int → Bool

/-- `NoStealingManager` (transfer_cache.h): stealing disabled —
`DetermineSizeClassToEvict` returns -1, `MakeCacheSpace` and `ShrinkCache`
return false. -/
def NoStealingManager : Manager :=
  { DetermineSizeClassToEvict := fun _ => -1,
    MakeCacheSpace := fun _ => false,
    ShrinkCache := fun _ => false }

/-- The production instantiation (transfer_cache.h):
`ShardedTransferCacheManager = ShardedTransferCacheManagerBase
<NoStealingManager, ProdCpuLayout, BackingTransferCache>` — its manager
type argument is `NoStealingManager`. -/
def ShardedTransferCacheManagerOwner : Manager := NoStealingManager

/-- A per-class ring cache with its backing central freelist, for tracking
where inserted object pointers (modelled as numbers) end up. -/
structure RingCache where
  capacity : Nat
  entries : List Nat
  freelist : List Nat
  deriving Repr, DecidableEq

/-- Modelled from the spec (§4.8): `RingBufferTransferCache::InsertRange`
(transfer_cache_internals.h is absent from the sources) — append when the
batch fits; otherwise attempt to grow capacity through the manager's
`MakeCacheSpace`; if that fails, overflow the batch to the backing central
freelist via `freelist().InsertRange(batch)`. -/
def RingCache.insertRange (m : Manager) (rc : RingCache) (batch : List Nat) :
    RingCache :=
  if rc.entries.length + batch.length ≤ rc.capacity then
    { rc with entries := rc.entries ++ batch }
  else if m.MakeCacheSpace (Int.ofNat batch.length) then
    { rc with
      capacity := rc.capacity + batch.length,
      entries := rc.entries ++ batch }
  else
    { rc with freelist := rc.freelist ++ batch }

/-- C10: the production sharded manager is `NoStealingManager`, whose
`MakeCacheSpace` always returns false, `ShrinkCache` always returns false
and `DetermineSizeClassToEvict` always returns -1; hence a sharded ring
cache never grows its capacity past the value fixed at shard initialization
and an insert into a full cache overflows the whole batch to the backing
transfer cache. -/
theorem c10_no_stealing_overflow (sc n : Int) (rc : RingCache)
    (batch : List Nat)
    (hfull : rc.capacity < rc.entries.length + batch.length) :
    ShardedTransferCacheManagerOwner = NoStealingManager ∧
    ShardedTransferCacheManagerOwner.MakeCacheSpace n = false ∧
    ShardedTransferCacheManagerOwner.ShrinkCache n = false ∧
    ShardedTransferCacheManagerOwner.DetermineSizeClassToEvict sc = -1 ∧
    rc.insertRange ShardedTransferCacheManagerOwner batch =
      { rc with freelist := rc.freelist ++ batch } ∧
    (∀ b2 : List Nat,
      (rc.insertRange ShardedTransferCacheManagerOwner b2).capacity =
        rc.capacity) := by
  refine ⟨rfl, rfl, rfl, rfl, ?_, ?_⟩
  · rw [RingCache.insertRange, if_neg (by omega)]
    rw [if_neg (by
      show ¬ShardedTransferCacheManagerOwner.MakeCacheSpace
        (Int.ofNat batch.length) = true
      simp [ShardedTransferCacheManagerOwner, NoStealingManager])]
  · intro b2
    rw [RingCache.insertRange]
    by_cases hfit : rc.entries.length + b2.length ≤ rc.capacity
    · rw [if_pos hfit]
    · rw [if_neg hfit]
      rw [if_neg (by
        show ¬ShardedTransferCacheManagerOwner.MakeCacheSpace
          (Int.ofNat b2.length) = true
        simp [ShardedTransferCacheManagerOwner, NoStealingManager])]

/-- C10 witness: a full one-slot cache overflows a singleton batch. -/
theorem c10_no_stealing_overflow_witness :
    RingCache.insertRange ShardedTransferCacheManagerOwner
      { capacity := 1, entries := [7], freelist := [] } [8] =
      { capacity := 1, entries := [7], freelist := [8] } := by
  exact (c10_no_stealing_overflow 3 5
    { capacity := 1, entries := [7], freelist := [] } [8] (by decide)).2.2.2.2.1

end TCMalloc
